import Mathlib

/-!
Verification development for the `py-abstractions` repository.

Part 1 models the bounded-concurrency executor `run_bounded` from
`src/abstractions/async_abstractions.py` as a small-step transition system.
The Python function is built from:
  * `task_q   = asyncio.Queue(limit)`   — a bounded queue of capacity `limit`,
  * `result_q = asyncio.Queue()`        — an unbounded queue,
  * `consumer_sema = asyncio.Semaphore(limit)`,
  * one producer task: `async for coroutine in tasks:` (advance the source),
    then `async with consumer_sema: await task_q.put(coroutine)`; after the
    source is exhausted it puts `limit` sentinels on `task_q`;
  * `limit` consumer tasks: loop:
    `async with consumer_sema:` take an item from `task_q`; a sentinel breaks
    the loop (the `async with` releases the semaphore on exit); otherwise the
    operation is run, its result or exception is captured in a fresh future
    (`fut.set_result` / `fut.set_exception`) and the settled future is put on
    `result_q` — the put on the unbounded queue, and the semaphore release on
    leaving the `async with` block, happen without any suspension point after
    the operation completes, so finish/publish/release form one atomic step;
  * a `send_complete` task that awaits all consumers and then puts a sentinel
    on `result_q`;
  * `gen_results` which drains `result_q` and yields each settled future.

States record the producer's position in that control flow, each consumer's
position, both queue contents, the semaphore value and the items yielded so
far.  Scheduling is nondeterministic: any enabled atomic step may fire, which
over-approximates the set of schedules the asyncio event loop can produce
(asyncio's actual deterministic schedules are particular step sequences of
this system).  The model is faithful for `limit ≥ 1`; `asyncio.Queue(0)` is
unbounded, so `limit = 0` (excluded by the spec) is out of scope.

The outcome of operation `i` is `cfg.spec i` — `ok v` if the deferred
operation returns `v`, `err e` if it raises exception `e`.
-/

namespace PyAbs

/-- Outcome of one deferred operation: a returned value or a raised failure,
mirroring `fut.set_result` / `fut.set_exception` in the consumer. -/
inductive Result where
  | ok  : Nat → Result
  | err : Nat → Result
deriving DecidableEq, Repr

/-- Parameters of one `run_bounded` call: the source yields `n` deferred
operations, `limit` is the concurrency bound, and executing operation `i`
yields outcome `spec i`. -/
structure Config where
  n : Nat
  limit : Nat
  spec : Nat → Result

/-- Producer control state, following the Python control flow:
`preq` — at the top of `async for` (about to advance the source);
`pacq i` — obtained item `i`, waiting on `consumer_sema.acquire`;
`pput i` — holding a semaphore permit, waiting on `task_q.put(i)`;
`prel` — put done, about to release the permit;
`psent k` — source exhausted, has put `k` of the `limit` sentinels;
`pdone` — producer finished. -/
inductive PState where
  | preq
  | pacq : Nat → PState
  | pput : Nat → PState
  | prel
  | psent : Nat → PState
  | pdone
deriving DecidableEq, Repr

/-- Consumer control state:
`cacq` — waiting on `consumer_sema.acquire` at the top of the loop;
`cget` — holding a permit, waiting on `task_q.get()`;
`cexec i` — operation `i` is executing (`await coroutine` in flight);
`cdone` — received a sentinel and exited the loop. -/
inductive CState where
  | cacq
  | cget
  | cexec : Nat → CState
  | cdone
deriving DecidableEq, Repr

/-- An element of `task_q`: a deferred operation or the shutdown sentinel. -/
inductive QItem where
  | task : Nat → QItem
  | sent
deriving DecidableEq, Repr

/-- An element of `result_q`: a settled future for operation `i` (already
holding its result or captured exception), or the completion sentinel put by
`send_complete`. -/
inductive RItem where
  | res : Nat → Result → RItem
  | rsent
deriving DecidableEq, Repr

/-- A global state of the `run_bounded` system. -/
structure EState where
  pstate : PState
  produced : Nat
  consumers : List CState
  taskQ : List QItem
  resultQ : List RItem
  sema : Nat
  sentSent : Bool
  genDone : Bool
  delivered : List (Nat × Result)
deriving DecidableEq, Repr

/-- The initial state of one `run_bounded cfg` call. -/
def init (cfg : Config) : EState :=
  { pstate := .preq
    produced := 0
    consumers := List.replicate cfg.limit .cacq
    taskQ := []
    resultQ := []
    sema := cfg.limit
    sentSent := false
    genDone := false
    delivered := [] }

/-- One atomic step of the `run_bounded` system.  Each constructor is one
suspension-point-to-suspension-point segment of the Python code. -/
inductive Step (cfg : Config) : EState → EState → Prop where
  /-- Producer advances the source (`async for` requests the next item). -/
  | req (s : EState) (h : s.pstate = .preq) (hn : s.produced < cfg.n) :
      Step cfg s { s with pstate := .pacq s.produced, produced := s.produced + 1 }
  /-- Producer advances the exhausted source (`StopAsyncIteration`). -/
  | srcEnd (s : EState) (h : s.pstate = .preq) (hn : cfg.n ≤ s.produced) :
      Step cfg s { s with pstate := .psent 0 }
  /-- Producer acquires a semaphore permit. -/
  | pAcq (s : EState) (i : Nat) (h : s.pstate = .pacq i) (hs : 0 < s.sema) :
      Step cfg s { s with pstate := .pput i, sema := s.sema - 1 }
  /-- Producer puts item `i` on the bounded task queue. -/
  | pPut (s : EState) (i : Nat) (h : s.pstate = .pput i)
      (hq : s.taskQ.length < cfg.limit) :
      Step cfg s { s with pstate := .prel, taskQ := s.taskQ ++ [.task i] }
  /-- Producer releases its permit on leaving `async with`. -/
  | pRel (s : EState) (h : s.pstate = .prel) :
      Step cfg s { s with pstate := .preq, sema := s.sema + 1 }
  /-- Producer puts one of the `limit` shutdown sentinels on the task queue. -/
  | pSent (s : EState) (k : Nat) (h : s.pstate = .psent k) (hk : k < cfg.limit)
      (hq : s.taskQ.length < cfg.limit) :
      Step cfg s { s with
        pstate := if k + 1 = cfg.limit then .pdone else .psent (k + 1)
        taskQ := s.taskQ ++ [.sent] }
  /-- Consumer `c` acquires a semaphore permit. -/
  | cAcq (s : EState) (c : Nat) (h : s.consumers.get? c = some .cacq)
      (hs : 0 < s.sema) :
      Step cfg s { s with consumers := s.consumers.set c .cget, sema := s.sema - 1 }
  /-- Consumer `c` takes operation `i` off the task queue and starts it
  (`await coroutine` begins running the operation with no suspension point
  in between). -/
  | cGetTask (s : EState) (c i : Nat) (rest : List QItem)
      (h : s.consumers.get? c = some .cget) (hq : s.taskQ = .task i :: rest) :
      Step cfg s { s with consumers := s.consumers.set c (.cexec i), taskQ := rest }
  /-- Consumer `c` takes a sentinel, breaks out of its loop and releases its
  permit. -/
  | cGetSent (s : EState) (c : Nat) (rest : List QItem)
      (h : s.consumers.get? c = some .cget) (hq : s.taskQ = .sent :: rest) :
      Step cfg s { s with
        consumers := s.consumers.set c .cdone, taskQ := rest, sema := s.sema + 1 }
  /-- Operation `i` finishes on consumer `c`: its outcome is captured in a
  settled future, the future is put on the unbounded result queue, and the
  permit is released — all without an intervening suspension point. -/
  | cFin (s : EState) (c i : Nat) (h : s.consumers.get? c = some (.cexec i)) :
      Step cfg s { s with
        consumers := s.consumers.set c .cacq
        sema := s.sema + 1
        resultQ := s.resultQ ++ [.res i (cfg.spec i)] }
  /-- `send_complete` observes all consumers finished and puts the completion
  sentinel on the result queue. -/
  | complete (s : EState) (h : ∀ st ∈ s.consumers, st = CState.cdone)
      (hs : s.sentSent = false) :
      Step cfg s { s with resultQ := s.resultQ ++ [.rsent], sentSent := true }
  /-- `gen_results` takes a settled future off the result queue and
  `run_bounded` yields it to the caller. -/
  | deliverRes (s : EState) (i : Nat) (r : Result) (rest : List RItem)
      (hg : s.genDone = false) (hq : s.resultQ = .res i r :: rest) :
      Step cfg s { s with resultQ := rest, delivered := s.delivered ++ [(i, r)] }
  /-- `gen_results` takes the completion sentinel and the produced sequence
  ends. -/
  | deliverSent (s : EState) (rest : List RItem)
      (hg : s.genDone = false) (hq : s.resultQ = .rsent :: rest) :
      Step cfg s { s with resultQ := rest, genDone := true }

/-- Finitely many steps. -/
def Steps (cfg : Config) : EState → EState → Prop :=
  Relation.ReflTransGen (Step cfg)

/-- A state from which no step is enabled — every task of the system is
blocked (or finished) and the output generator can make no progress. -/
def Stuck (cfg : Config) (s : EState) : Prop :=
  ∀ s', ¬ Step cfg s s'

/-- Is this consumer executing an operation? -/
def isExecB : CState → Bool
  | .cexec _ => true
  | _ => false

/-- Does this consumer hold a semaphore permit?  A consumer holds a permit
from its `acquire` at the top of the loop until the release on leaving the
`async with` block. -/
def isHoldB : CState → Bool
  | .cget => true
  | .cexec _ => true
  | _ => false

/-- Is this queue item an operation (not a sentinel)? -/
def isTaskB : QItem → Bool
  | .task _ => true
  | _ => false

/-- Number of operations currently executing (consumers in `cexec`). -/
def execCount (s : EState) : Nat :=
  s.consumers.countP isExecB

/-- Number of consumers currently holding a semaphore permit. -/
def cHolds (s : EState) : Nat :=
  s.consumers.countP isHoldB

/-- 1 when the producer holds a semaphore permit. -/
def pHolds (s : EState) : Nat :=
  match s.pstate with | .pput _ => 1 | .prel => 1 | _ => 0

/-- 1 when the producer holds an item obtained from the source that it has
not yet put on the task queue. -/
def handCount (s : EState) : Nat :=
  match s.pstate with | .pacq _ => 1 | .pput _ => 1 | _ => 0

/-- Number of operations queued for execution on `task_q` (sentinels are not
operations). -/
def qCount (s : EState) : Nat :=
  s.taskQ.countP isTaskB

/-- The operation id carried by a result-queue item, if any. -/
def ritemId : RItem → Option Nat
  | .res i _ => some i
  | .rsent => none

/-- The settled (id, outcome) pair carried by a result-queue item, if any. -/
def ritemPair : RItem → Option (Nat × Result)
  | .res i r => some (i, r)
  | .rsent => none

/-- Ids of the operations whose settled futures sit on the result queue, in
queue order. -/
def resIds (s : EState) : List Nat :=
  s.resultQ.filterMap ritemId

/-- The settled (id, outcome) pairs on the result queue, in queue order. -/
def resPairs (s : EState) : List (Nat × Result) :=
  s.resultQ.filterMap ritemPair

/-- Ids of the operations whose outcomes have been yielded, in yield order. -/
def deliveredIds (s : EState) : List Nat :=
  s.delivered.map Prod.fst

/-- All finished operations in completion order: outcomes already yielded
followed by settled futures still queued. -/
def finSeq (s : EState) : List Nat :=
  deliveredIds s ++ resIds s

/-- Number of operations that have finished executing. -/
def finCount (s : EState) : Nat :=
  (finSeq s).length

/-- Ids of the operations currently executing. -/
def execList (s : EState) : List Nat :=
  s.consumers.filterMap fun st => match st with | .cexec i => some i | _ => none

/-- Ids of the operations that have started executing (running or finished). -/
def startedList (s : EState) : List Nat :=
  execList s ++ finSeq s

/-! ### Concrete configurations and schedules

`cfgOne` is `run_bounded` with `limit = 1` on a source of two operations that
both succeed — the exact situation of the repository's own test
`test_run_bounded_with_no_concurrency` (which uses three operations; two
already suffice).  `cfgOneFail` is the same with the first operation raising.
`cfgTwo` is `limit = 2` on three operations; `cfgOrd` is `limit = 2` on two
operations, used for the completion-order schedule. -/

def cfgOne : Config := ⟨2, 1, fun _ => .ok 0⟩

def cfgOneFail : Config := ⟨2, 1, fun i => if i = 0 then .err 5 else .ok 0⟩

def cfgTwo : Config := ⟨3, 2, fun i => .ok i⟩

def cfgOrd : Config := ⟨2, 2, fun i => .ok (7 + i)⟩

/-- The state `run_bounded` with `limit = 1` and a two-operation source runs
into under asyncio's deterministic schedule: the producer has obtained both
items, put item 0 on the (now full) task queue, re-acquired the single
semaphore permit and is blocked in `task_q.put(1)`; the consumer is blocked
in `consumer_sema.acquire`.  No step is enabled: a deadlock. -/
def deadState : EState :=
  { pstate := .pput 1
    produced := 2
    consumers := [.cacq]
    taskQ := [.task 0]
    resultQ := []
    sema := 0
    sentSent := false
    genDone := false
    delivered := [] }

/-- A state of `run_bounded` with `limit = 2` in which three items have been
requested from the source, two operations sit queued on `task_q` and one is
executing — reached by asyncio's schedule for `cfgTwo` when the first
consumer dequeues operation 0 and starts it while the blocked producer
completes `task_q.put` for item 2. -/
def aheadState : EState :=
  { pstate := .prel
    produced := 3
    consumers := [.cexec 0, .cacq]
    taskQ := [.task 1, .task 2]
    resultQ := []
    sema := 0
    sentSent := false
    genDone := false
    delivered := [] }

/-- Intermediate state of the `cfgOrd` schedule: operation 0 has finished
(its settled future is on the result queue) and operation 1 has not been
requested from the source yet, let alone started. -/
def ordMid : EState :=
  { pstate := .preq
    produced := 1
    consumers := [.cacq, .cacq]
    taskQ := []
    resultQ := [.res 0 (.ok 7)]
    sema := 2
    sentSent := false
    genDone := false
    delivered := [] }

/-- Final state of the `cfgOrd` schedule: both outcomes have been yielded,
operation 0 first. -/
def ordFin : EState :=
  { pstate := .preq
    produced := 2
    consumers := [.cacq, .cacq]
    taskQ := []
    resultQ := []
    sema := 2
    sentSent := false
    genDone := false
    delivered := [(0, .ok 7), (1, .ok 8)] }

/-- The inductive invariant of the `run_bounded` system, for `limit ≥ 1`:
semaphore-permit conservation, the task-queue capacity bound, conservation
of requested operations across the pipeline stages, the queued+executing
bound, and settledness of every published future. -/
structure Inv (cfg : Config) (s : EState) : Prop where
  hlen : s.consumers.length = cfg.limit
  hsema : s.sema + pHolds s + cHolds s = cfg.limit
  hq : s.taskQ.length ≤ cfg.limit
  hcard : s.produced = finCount s + execCount s + qCount s + handCount s
  hbound : qCount s + execCount s + 1 ≤ 2 * cfg.limit
  hspec : ∀ p ∈ s.delivered ++ resPairs s, p.2 = cfg.spec p.1

/-! ### Claim statements about `run_bounded` -/

/-- The spec's laziness claim, as stated: the executor never requests the
`(k+1)`-th item from the source, for any `k ≥ limit`, before at least one
operation has completed (the spec demands one of the first `limit`; requiring
merely *some* completed operation is weaker, so refuting this refutes the
spec's claim). -/
def claimSourceLaziness (cfg : Config) : Prop :=
  ∀ s, Steps cfg (init cfg) s → cfg.limit + 1 ≤ s.produced → 1 ≤ finCount s

/-- The spec's admission-invariant claim, as stated: at every instant,
operations queued for execution plus operations executing is at most
`limit`. -/
def claimAdmission (cfg : Config) : Prop :=
  ∀ s, Steps cfg (init cfg) s → qCount s + execCount s ≤ cfg.limit

/-!
## Part 2: the storage pipelines

The module `abstractions.storage` (`create_or_resume_jsonl_file`,
`map_by_key_jsonl_file`, `disk_cache`) is not present under `src/`; only its
test suite `test/test_storage.py` is.  The definitions below are therefore
modelled from the specification's §4.2–§4.4 and §7, with JSONL files as
lists of records and a record as an association list from field names to
values of a type `V`.  The executor's completion-order nondeterminism only
permutes appended rows, and every property below is stated up to
permutation (or is order-independent), so the sequential model processes
remaining rows in input order.
-/

/-- A Record: an association list from field names to values (first binding
wins on lookup, as in a JSON object read left to right). -/
abbrev Rec (V : Type) := List (String × V)

/-- Field lookup in a Record. -/
def getF {V : Type} (r : Rec V) (k : String) : Option V :=
  (r.find? fun p => p.1 == k).map (·.2)

/-- The sub-record of `row` given by the field names in `keep`
(`keep_columns`). -/
def keepPart {V : Type} (keep : List String) (row : Rec V) : Rec V :=
  keep.filterMap fun k => (getF row k).map fun v => (k, v)

/-- Merge of a transform result with retained input fields, result fields
taking precedence on conflict. -/
def mergeRec {V : Type} (result extra : Rec V) : Rec V :=
  result ++ extra.filter fun p => !(result.any fun q => q.1 == p.1)

/-- The Record the mapping pipeline writes for input `row` under a total
transform `g`: `g row` merged with the retained columns. -/
def expectedRow {V : Type} (g : Rec V → Rec V) (keep : List String)
    (row : Rec V) : Rec V :=
  mergeRec (g row) (keepPart keep row)

/-- The key values present in an output file (the audited set of Step 1 of
the mapping pipeline). -/
def doneKeys {V : Type} (key : String) (out : List (Rec V)) : List V :=
  out.filterMap fun r => getF r key

/-- Modelled from the spec: the result of one `map_by_key_jsonl_file` call —
the final output-file contents, the rows the transform was invoked on (in
invocation order), and the per-item failures that an `on_error="raise"` call
aggregates into the single failure it raises after the run. -/
structure MapOut (V E : Type) where
  file : List (Rec V)
  calls : List (Rec V)
  errors : List (Rec V × E)
deriving DecidableEq

/-- Does the mapping pipeline process this row?  Yes exactly when it carries
a key that is not in the audited `done` set (spec §4.3 Step 2; a Record
always carries its Key by the data model, so the keyless case never arises
under the claims' hypotheses). -/
def procP {V : Type} [DecidableEq V] (key : String) (done : List V)
    (row : Rec V) : Bool :=
  match getF row key with
  | none => false
  | some k => decide (k ∉ done)

/-- The rows of `input` the pipeline processes, in order. -/
def procRows {V : Type} [DecidableEq V] (key : String) (done : List V)
    (input : List (Rec V)) : List (Rec V) :=
  input.filter (procP key done)

/-- The output Record written for a processed row, when its transform
succeeds. -/
def okRec {V E : Type} (f : Rec V → Except E (Rec V)) (keep : List String)
    (row : Rec V) : Option (Rec V) :=
  match f row with
  | .ok res => some (mergeRec res (keepPart keep row))
  | .error _ => none

/-- The (item, failure) pair recorded for a processed row whose transform
fails. -/
def errPair {V E : Type} (f : Rec V → Except E (Rec V)) (row : Rec V) :
    Option (Rec V × E) :=
  match f row with
  | .ok _ => none
  | .error e => some (row, e)

/-- Modelled from the spec: processing of one input row — skip it if its key
is audited, otherwise invoke the transform and either append the merged
Record to the file (streaming append) or record the failure. -/
def mapStep {V E : Type} [DecidableEq V] (f : Rec V → Except E (Rec V))
    (key : String) (keep : List String) (done : List V) (acc : MapOut V E)
    (row : Rec V) : MapOut V E :=
  if procP key done row then
    match f row with
    | .ok res =>
        { acc with
          file := acc.file ++ [mergeRec res (keepPart keep row)]
          calls := acc.calls ++ [row] }
    | .error e =>
        { acc with
          calls := acc.calls ++ [row], errors := acc.errors ++ [(row, e)] }
  else acc

/-- Modelled from the spec: `map_by_key_jsonl_file` (absent from `src/`) —
audit the existing output file, then stream the input, transforming exactly
the rows whose key is not yet written and appending each result as it
completes. -/
def mapByKey {V E : Type} [DecidableEq V] (input out0 : List (Rec V))
    (f : Rec V → Except E (Rec V)) (key : String) (keep : List String) :
    MapOut V E :=
  input.foldl (mapStep f key keep (doneKeys key out0))
    { file := out0, calls := [], errors := [] }

/-- A total transform `g`, wrapped as an `Except`-valued transform that
never fails. -/
def okF {V : Type} (g : Rec V → Rec V) : Rec V → Except Unit (Rec V) :=
  fun r => .ok (g r)

/-- Concrete two-row input mirroring `test_data/in_trivial.jsonl`
(keys 10 and 20, one retained column `other`). -/
def inputW : List (Rec Nat) :=
  [[("key", 10), ("other", 100)], [("key", 20), ("other", 200)]]

/-- The concrete transform of the storage tests: `key ↦ {result: key+1,
key: key}`. -/
def gW : Rec Nat → Rec Nat := fun row =>
  [("result", (getF row "key").getD 0 + 1), ("key", (getF row "key").getD 0)]

/-- The Record pre-seeded for key 10 in `test_resume_does_not_recompute`. -/
def seedW : Rec Nat := [("result", 11), ("key", 10), ("other", 100)]

/-- The concrete failing transform of
`test_map_jsonl_error_raise_writes_prior_rows`: it raises for key 20 and
succeeds for the others. -/
def fW : Rec Nat → Except Nat (Rec Nat) := fun row =>
  if getF row "key" = some 20 then .error 7
  else .ok [("result", (getF row "key").getD 0 + 1),
    ("key", (getF row "key").getD 0)]

/-! ### The generation pipeline (`create_or_resume_jsonl_file`) -/

/-- Number of Records in `file` whose `key` field holds `k` (the audit of
spec §4.2 Step 1). -/
def countKey {V : Type} [DecidableEq V] (file : List (Rec V)) (key : String)
    (k : V) : Nat :=
  file.countP fun r => decide (getF r key = some k)

/-- Structural check for one audited row: its key value must be one of the
expected key values (a missing key field is likewise fatal, as the audit
cannot read it). -/
def rowOkB {V : Type} [DecidableEq V] (key : String) (keys : List V)
    (r : Rec V) : Bool :=
  match getF r key with
  | some k => decide (k ∈ keys)
  | none => false

/-- The Records generated by one run: for each expected key value, one new
Record per unit of positive deficit (`gen k i` is the `i`-th fresh Record
the value generator produces for key value `k`). -/
def genList {V : Type} [DecidableEq V] (file : List (Rec V)) (key : String)
    (target : Nat) (keys : List V) (gen : V → Nat → Rec V) : List (Rec V) :=
  (keys.map fun k => (List.range (target - countKey file key k)).map (gen k)).flatten

/-- Modelled from the spec: `create_or_resume_jsonl_file` (absent from
`src/`) — audit the file, abort with a structural failure if any Record
bears an unexpected key value, otherwise append one generated Record per
unit of deficit. -/
def createOrResume {V : Type} [DecidableEq V] (file : List (Rec V))
    (key : String) (target : Nat) (keys : List V) (gen : V → Nat → Rec V) :
    Except Unit (List (Rec V)) :=
  if file.all (rowOkB key keys) then
    .ok (file ++ genList file key target keys gen)
  else
    .error ()

/-- A file holding three Records for the only expected key value. -/
def c8file : List (Rec Nat) := [[("letter", 0)], [("letter", 0)], [("letter", 0)]]

/-- A value generator producing one Record bearing the requested key. -/
def c8gen : Nat → Nat → Rec Nat := fun k _ => [("letter", k)]

/-- A partial file with a filled key (count 2 = target) and a deficient key
(count 1), mirroring `test_resume_existing_file`. -/
def c8fileW : List (Rec Nat) := [[("letter", 0)], [("letter", 0)], [("letter", 1)]]

/-! ### The memoizing cache block (`disk_cache`) -/

/-- Restore saved bindings over the current ones: a saved binding shadows
the current value of the same name; all other current bindings survive. -/
def overrideRec {V : Type} (base upd : Rec V) : Rec V :=
  upd ++ base.filter fun p => !(upd.any fun q => q.1 == p.1)

/-- The observable result of one `with disk_cache(path): <block>`
execution: the local bindings after the block, the Cache Record persisted
at the path, and whether the block's body ran. -/
structure CacheOut (V : Type) where
  locals : Rec V
  cache : Option (Rec V)
  executed : Bool
deriving DecidableEq

/-- Modelled from the spec: `disk_cache` (absent from `src/`).  With no
Cache Record present, the block's body runs and the bindings that are new
or changed relative to the bindings before the block are persisted; with a
Cache Record present, the persisted values are restored into the same names
and the body is not executed. -/
def diskCache {V : Type} [DecidableEq V] (cache : Option (Rec V))
    (body : Rec V → Rec V) (locals0 : Rec V) : CacheOut V :=
  match cache with
  | some saved => ⟨overrideRec locals0 saved, some saved, false⟩
  | none =>
      ⟨body locals0,
        some ((body locals0).filter fun p =>
          !(decide (getF locals0 p.1 = some p.2))),
        true⟩

/-- The concrete block of `test_disk_cache_roundtrip`: it binds `a := 6`
and `b := 12` in an empty scope. -/
def c9body : Rec Nat → Rec Nat := fun _ => [("a", 6), ("b", 12)]

/-! ## Theorems -/

/-- The asyncio event loop's actual schedule for `cfgOne` reaches
`deadState`: the producer runs without suspending (advance source, acquire,
put, release, advance source, acquire) and then blocks on the full queue. -/
theorem reach_dead_one : Steps cfgOne (init cfgOne) deadState := by
  refine .head (Step.req _ rfl (by decide)) ?_
  refine .head (Step.pAcq _ 0 rfl (by decide)) ?_
  refine .head (Step.pPut _ 0 rfl (by decide)) ?_
  refine .head (Step.pRel _ rfl) ?_
  refine .head (Step.req _ rfl (by decide)) ?_
  refine .head (Step.pAcq _ 1 rfl (by decide)) ?_
  exact .refl

/-- The same schedule deadlocks regardless of the operations' outcomes: no
step of the trace ever executes an operation. -/
theorem reach_dead_oneFail : Steps cfgOneFail (init cfgOneFail) deadState := by
  refine .head (Step.req _ rfl (by decide)) ?_
  refine .head (Step.pAcq _ 0 rfl (by decide)) ?_
  refine .head (Step.pPut _ 0 rfl (by decide)) ?_
  refine .head (Step.pRel _ rfl) ?_
  refine .head (Step.req _ rfl (by decide)) ?_
  refine .head (Step.pAcq _ 1 rfl (by decide)) ?_
  exact .refl

/-- In `deadState` (for any outcomes, any source length, `limit = 1`) no step
is enabled: the producer holds the only permit and waits for queue space, the
consumer waits for the permit, and the result queue is empty. -/
theorem deadState_stuck (cfg : Config) (hl : cfg.limit = 1) :
    Stuck cfg deadState := by
  intro s' h
  cases h with
  | req h hn => simp_all [deadState]
  | srcEnd h hn => simp_all [deadState]
  | pAcq i h hs => simp_all [deadState]
  | pPut i h hq => simp_all [deadState]
  | pRel h => simp_all [deadState]
  | pSent k h hk hq => simp_all [deadState]
  | cAcq c h hs => simp_all [deadState]
  | cGetTask c i rest h hq => rcases c with _ | c <;> simp_all [deadState]
  | cGetSent c rest h hq => simp_all [deadState]
  | cFin c i h => rcases c with _ | c <;> simp_all [deadState]
  | complete h hs => simp_all [deadState]
  | deliverRes i r rest hg hq => simp_all [deadState]
  | deliverSent rest hg hq => simp_all [deadState]

/-- Schedule reaching `aheadState` for `cfgTwo`. -/
theorem reach_ahead : Steps cfgTwo (init cfgTwo) aheadState := by
  refine .head (Step.req _ rfl (by decide)) ?_
  refine .head (Step.pAcq _ 0 rfl (by decide)) ?_
  refine .head (Step.pPut _ 0 rfl (by decide)) ?_
  refine .head (Step.pRel _ rfl) ?_
  refine .head (Step.req _ rfl (by decide)) ?_
  refine .head (Step.pAcq _ 1 rfl (by decide)) ?_
  refine .head (Step.pPut _ 1 rfl (by decide)) ?_
  refine .head (Step.pRel _ rfl) ?_
  refine .head (Step.req _ rfl (by decide)) ?_
  refine .head (Step.pAcq _ 2 rfl (by decide)) ?_
  refine .head (Step.cAcq _ 0 (by decide) (by decide)) ?_
  refine .head (Step.cGetTask _ 0 0 [.task 1] (by decide) (by decide)) ?_
  refine .head (Step.pPut _ 2 rfl (by decide)) ?_
  exact .refl

/-- Schedule reaching `ordMid` for `cfgOrd`: operation 0 is produced,
executed and finished before the source is advanced again. -/
theorem reach_ordMid : Steps cfgOrd (init cfgOrd) ordMid := by
  refine .head (Step.req _ rfl (by decide)) ?_
  refine .head (Step.pAcq _ 0 rfl (by decide)) ?_
  refine .head (Step.pPut _ 0 rfl (by decide)) ?_
  refine .head (Step.pRel _ rfl) ?_
  refine .head (Step.cAcq _ 0 (by decide) (by decide)) ?_
  refine .head (Step.cGetTask _ 0 0 [] (by decide) (by decide)) ?_
  refine .head (Step.cFin _ 0 0 (by decide)) ?_
  exact .refl

/-- Continuation of the `cfgOrd` schedule from `ordMid` to `ordFin`:
operation 1 is produced, executed and finished, then both settled futures
are yielded in queue order. -/
theorem reach_ordFin : Steps cfgOrd ordMid ordFin := by
  refine .head (Step.req _ rfl (by decide)) ?_
  refine .head (Step.pAcq _ 1 rfl (by decide)) ?_
  refine .head (Step.pPut _ 1 rfl (by decide)) ?_
  refine .head (Step.pRel _ rfl) ?_
  refine .head (Step.cAcq _ 0 (by decide) (by decide)) ?_
  refine .head (Step.cGetTask _ 0 1 [] (by decide) (by decide)) ?_
  refine .head (Step.cFin _ 0 1 (by decide)) ?_
  refine .head (Step.deliverRes _ 0 (.ok 7) [.res 1 (.ok 8)] (by decide) (by decide)) ?_
  refine .head (Step.deliverRes _ 1 (.ok 8) [] (by decide) (by decide)) ?_
  exact .refl

/-! ### The inductive invariant -/

/-- Replacing the element at position `c` (known to be `x`) by `y` changes a
`countP` by the difference of the two indicator values. -/
theorem countP_set_of_get {α : Type} (p : α → Bool) (l : List α) (c : Nat)
    (x y : α) (h : l.get? c = some x) :
    (l.set c y).countP p + (if p x then 1 else 0)
      = l.countP p + (if p y then 1 else 0) := by
  induction l generalizing c with
  | nil => simp at h
  | cons a tl ih =>
    cases c with
    | zero =>
      simp only [List.get?_cons_zero, Option.some.injEq] at h
      subst h
      simp [List.countP_cons]
      split_ifs <;> omega
    | succ c =>
      simp only [List.get?_cons_succ] at h
      have := ih c h
      simp [List.countP_cons]
      split_ifs at this ⊢ <;> omega

/-- A consumer that is executing holds a permit. -/
theorem execCount_le_cHolds (s : EState) : execCount s ≤ cHolds s :=
  List.countP_mono_left fun st _ h => by cases st <;> simp_all [isExecB, isHoldB]

/-- There are no more queued operations than task-queue entries. -/
theorem qCount_le_len (s : EState) : qCount s ≤ s.taskQ.length :=
  List.countP_le_length _

/-- `countP` of a replicated element whose indicator is false is zero. -/
theorem countP_replicate_false {α : Type} (p : α → Bool) (n : Nat) (a : α)
    (h : p a = false) : (List.replicate n a).countP p = 0 := by
  induction n with
  | zero => simp
  | succ n ih => simp [List.replicate_succ, List.countP_cons, h, ih]

/-- No consumer holds a permit initially. -/
theorem cHolds_init (cfg : Config) : cHolds (init cfg) = 0 :=
  countP_replicate_false _ _ _ rfl

/-- No consumer executes initially. -/
theorem execCount_init (cfg : Config) : execCount (init cfg) = 0 :=
  countP_replicate_false _ _ _ rfl

/-- The initial state satisfies the invariant. -/
theorem inv_init (cfg : Config) (hl : 1 ≤ cfg.limit) : Inv cfg (init cfg) := by
  have hc := cHolds_init cfg
  have he := execCount_init cfg
  refine ⟨?_, ?_, ?_, ?_, ?_, ?_⟩
  · simp [init]
  · rw [hc]; simp [init, pHolds]
  · simp [init]
  · rw [he]; simp [init, finCount, finSeq, deliveredIds, resIds, qCount, handCount]
  · rw [he]; simp [init, qCount]; omega
  · simp [init, resPairs]

/-- Every step preserves the invariant. -/
theorem inv_step (cfg : Config) (s s' : EState) (hI : Inv cfg s)
    (h : Step cfg s s') : Inv cfg s' := by
  obtain ⟨h1, h2, h3, h4, h5, h6⟩ := hI
  cases h with
  | req h hn =>
    refine ⟨h1, ?_, h3, ?_, h5, h6⟩ <;>
      simp_all [pHolds, handCount, cHolds, execCount, qCount, finCount, finSeq,
        deliveredIds, resIds] <;> omega
  | srcEnd h hn =>
    refine ⟨h1, ?_, h3, ?_, h5, h6⟩ <;>
      simp_all [pHolds, handCount, cHolds, execCount, qCount, finCount, finSeq,
        deliveredIds, resIds]
  | pAcq i h hs =>
    refine ⟨h1, ?_, h3, ?_, h5, h6⟩ <;>
      simp_all [pHolds, handCount, cHolds, execCount, qCount, finCount, finSeq,
        deliveredIds, resIds] <;> omega
  | pPut i h hq =>
    have hqle := qCount_le_len s
    have hex := execCount_le_cHolds s
    refine ⟨h1, ?_, ?_, ?_, ?_, h6⟩ <;>
      simp_all [pHolds, handCount, cHolds, execCount, qCount, finCount, finSeq,
        deliveredIds, resIds, List.countP_append, isTaskB, List.countP_cons] <;>
      omega
  | pRel h =>
    refine ⟨h1, ?_, h3, ?_, h5, h6⟩ <;>
      simp_all [pHolds, handCount, cHolds, execCount, qCount, finCount, finSeq,
        deliveredIds, resIds] <;> omega
  | pSent k h hk hq =>
    have hps : pHolds { s with
        pstate := if k + 1 = cfg.limit then .pdone else .psent (k + 1)
        taskQ := s.taskQ ++ [.sent] } = 0 := by
      by_cases hke : k + 1 = cfg.limit <;> simp [pHolds, hke]
    have hhs : handCount { s with
        pstate := if k + 1 = cfg.limit then .pdone else .psent (k + 1)
        taskQ := s.taskQ ++ [.sent] } = 0 := by
      by_cases hke : k + 1 = cfg.limit <;> simp [handCount, hke]
    refine ⟨h1, ?_, ?_, ?_, ?_, h6⟩ <;>
      simp_all [pHolds, handCount, cHolds, execCount, qCount, finCount, finSeq,
        deliveredIds, resIds, List.countP_append, isTaskB, List.countP_cons] <;>
      omega
  | cAcq c h hs =>
    have hH := countP_set_of_get isHoldB s.consumers c .cacq .cget h
    have hE := countP_set_of_get isExecB s.consumers c .cacq .cget h
    refine ⟨?_, ?_, h3, ?_, ?_, h6⟩ <;>
      simp_all [pHolds, handCount, cHolds, execCount, qCount, finCount, finSeq,
        deliveredIds, resIds, isHoldB, isExecB, List.length_set] <;> omega
  | cGetTask c i rest h hq =>
    have hH := countP_set_of_get isHoldB s.consumers c .cget (.cexec i) h
    have hE := countP_set_of_get isExecB s.consumers c .cget (.cexec i) h
    refine ⟨?_, ?_, ?_, ?_, ?_, h6⟩ <;>
      simp_all [pHolds, handCount, cHolds, execCount, qCount, finCount, finSeq,
        deliveredIds, resIds, isHoldB, isExecB, isTaskB, List.countP_cons,
        List.length_set] <;> omega
  | cGetSent c rest h hq =>
    have hH := countP_set_of_get isHoldB s.consumers c .cget .cdone h
    have hE := countP_set_of_get isExecB s.consumers c .cget .cdone h
    refine ⟨?_, ?_, ?_, ?_, ?_, h6⟩ <;>
      simp_all [pHolds, handCount, cHolds, execCount, qCount, finCount, finSeq,
        deliveredIds, resIds, isHoldB, isExecB, isTaskB, List.countP_cons,
        List.length_set] <;> omega
  | cFin c i h =>
    have hH := countP_set_of_get isHoldB s.consumers c (.cexec i) .cacq h
    have hE := countP_set_of_get isExecB s.consumers c (.cexec i) .cacq h
    refine ⟨?_, ?_, h3, ?_, ?_, ?_⟩
    · simp_all [List.length_set]
    · simp_all [pHolds, cHolds, execCount, isHoldB, isExecB]; omega
    · simp_all [pHolds, handCount, cHolds, execCount, qCount, finCount, finSeq,
        deliveredIds, resIds, ritemId, isHoldB, isExecB, List.filterMap_append]
      omega
    · simp_all [pHolds, handCount, cHolds, execCount, qCount, isExecB,
        isHoldB] <;> omega
    · intro p hp
      simp only [resPairs, List.filterMap_append, List.filterMap_cons,
        List.filterMap_nil, ritemPair] at hp
      rcases List.mem_append.1 hp with hp1 | hp2
      · exact h6 p (List.mem_append_left _ hp1)
      · rcases List.mem_append.1 hp2 with hp3 | hp4
        · exact h6 p (List.mem_append_right _ hp3)
        · simp at hp4
          subst hp4
          rfl
  | complete h hs =>
    refine ⟨h1, h2, h3, ?_, h5, ?_⟩
    · simpa [finCount, finSeq, deliveredIds, resIds, ritemId, qCount,
        execCount, handCount, List.filterMap_append] using h4
    · intro p hp
      refine h6 p ?_
      simpa [resPairs, ritemPair, List.filterMap_append] using hp
  | deliverRes i r rest hg hq =>
    refine ⟨h1, h2, h3, ?_, h5, ?_⟩
    · simp_all [finCount, finSeq, deliveredIds, resIds, qCount, execCount,
        handCount, List.filterMap_cons, ritemId] <;> omega
    · intro p hp
      have hres : resPairs s = (i, r) :: rest.filterMap ritemPair := by
        simp [resPairs, hq, ritemPair]
      refine h6 p (List.mem_append.2 ?_)
      rcases List.mem_append.1 hp with hp1 | hp2
      · rcases List.mem_append.1 hp1 with hp3 | hp4
        · exact Or.inl hp3
        · right
          rw [hres]
          simp at hp4
          simp [hp4]
      · right
        rw [hres]
        exact List.mem_cons_of_mem _ hp2
  | deliverSent rest hg hq =>
    refine ⟨h1, h2, h3, ?_, h5, ?_⟩
    · simp_all [finCount, finSeq, deliveredIds, resIds, qCount, execCount,
        handCount, List.filterMap_cons, ritemId] <;> omega
    · intro p hp
      refine h6 p ?_
      have hres : resPairs s = rest.filterMap ritemPair := by
        simp [resPairs, hq, ritemPair]
      rcases List.mem_append.1 hp with hm1 | hm2
      · exact List.mem_append_left _ hm1
      · refine List.mem_append_right _ ?_
        rw [hres]
        exact hm2

/-- Every reachable state of a `run_bounded` run with `limit ≥ 1` satisfies
the invariant. -/
theorem reachable_inv (cfg : Config) (hl : 1 ≤ cfg.limit) (s : EState)
    (h : Steps cfg (init cfg) s) : Inv cfg s := by
  induction h with
  | refl => exact inv_init cfg hl
  | tail _ hstep ih => exact inv_step _ _ _ ih hstep

/-! ### Completion order -/

/-- Along any single step, the completion sequence only grows at the end:
publishing a settled future appends to it, yielding an outcome moves an
element from the queued part to the yielded part without reordering, and all
other steps leave it unchanged. -/
theorem step_finSeq (cfg : Config) (s s' : EState) (h : Step cfg s s') :
    ∃ ext, finSeq s' = finSeq s ++ ext := by
  cases h with
  | req h hn => exact ⟨[], by simp [finSeq, deliveredIds, resIds]⟩
  | srcEnd h hn => exact ⟨[], by simp [finSeq, deliveredIds, resIds]⟩
  | pAcq i h hs => exact ⟨[], by simp [finSeq, deliveredIds, resIds]⟩
  | pPut i h hq => exact ⟨[], by simp [finSeq, deliveredIds, resIds]⟩
  | pRel h => exact ⟨[], by simp [finSeq, deliveredIds, resIds]⟩
  | pSent k h hk hq => exact ⟨[], by simp [finSeq, deliveredIds, resIds]⟩
  | cAcq c h hs => exact ⟨[], by simp [finSeq, deliveredIds, resIds]⟩
  | cGetTask c i rest h hq => exact ⟨[], by simp [finSeq, deliveredIds, resIds]⟩
  | cGetSent c rest h hq => exact ⟨[], by simp [finSeq, deliveredIds, resIds]⟩
  | cFin c i h =>
    exact ⟨[i], by
      simp [finSeq, deliveredIds, resIds, ritemId, List.filterMap_append]⟩
  | complete h hs =>
    exact ⟨[], by
      simp [finSeq, deliveredIds, resIds, ritemId, List.filterMap_append]⟩
  | deliverRes i r rest hg hq =>
    exact ⟨[], by
      simp [finSeq, deliveredIds, resIds, ritemId, hq, List.filterMap_cons]⟩
  | deliverSent rest hg hq =>
    exact ⟨[], by
      simp [finSeq, deliveredIds, resIds, ritemId, hq, List.filterMap_cons]⟩

/-- Along any number of steps the completion sequence of an earlier state is
a prefix of that of a later state. -/
theorem steps_finSeq (cfg : Config) (s s' : EState) (h : Steps cfg s s') :
    ∃ ext, finSeq s' = finSeq s ++ ext := by
  induction h with
  | refl => exact ⟨[], by simp⟩
  | tail _ hstep ih =>
    obtain ⟨e1, he1⟩ := ih
    obtain ⟨e2, he2⟩ := step_finSeq _ _ _ hstep
    exact ⟨e1 ++ e2, by rw [he2, he1, List.append_assoc]⟩

/-- The full schedule from the initial state of `cfgOrd` to `ordFin`. -/
theorem reach_ordFin_full : Steps cfgOrd (init cfgOrd) ordFin :=
  Relation.ReflTransGen.trans reach_ordMid reach_ordFin

/-- C1: run_bounded is claimed to produce exactly N outcomes for every
limit ≥ 1 and in particular never to deadlock for limit = 1 with a source of
more than one operation.  The code violates this: with `limit = 1` and a
two-operation source, asyncio's deterministic schedule reaches `deadState`,
where no step is enabled although the outcome sequence has not ended
(`genDone = false`); nothing was ever yielded and no operation ever started.
This contradicts the repository's own test
`test_run_bounded_with_no_concurrency` (limit 1, three operations). -/
theorem run_bounded_limit_one_deadlock :
    Steps cfgOne (init cfgOne) deadState ∧ Stuck cfgOne deadState ∧
      deadState.genDone = false ∧ deadState.delivered = [] ∧
      startedList deadState = [] :=
  ⟨reach_dead_one, deadState_stuck cfgOne rfl, rfl, rfl, rfl⟩

/-- C3 (counterexample): the laziness claim as stated is false.  With
`limit = 2` the reachable state `aheadState` has already requested item 3
(`produced = 3 ≥ limit + 1`) while no operation has completed. -/
theorem source_laziness_counterexample : ¬ claimSourceLaziness cfgTwo := by
  intro h
  exact absurd (h aheadState reach_ahead (by decide)) (by decide)

/-- C3 (amended): in any reachable state of a run with `limit ≥ 1`, the
number of items requested from the source is at most the number of completed
operations plus `2·limit` — the producer can run ahead of completions by the
task-queue capacity (`limit`) plus the executing consumers plus one item in
hand, but no further. -/
theorem run_bounded_read_ahead_bound (cfg : Config) (hl : 1 ≤ cfg.limit)
    (s : EState) (h : Steps cfg (init cfg) s) :
    s.produced ≤ finCount s + 2 * cfg.limit := by
  obtain ⟨h1, h2, h3, h4, h5, h6⟩ := reachable_inv cfg hl s h
  have hh : handCount s ≤ 1 := by unfold handCount; split <;> omega
  omega

/-- C3 (amended, witness): the bound holds at the concrete reachable state
`aheadState` of `cfgTwo`. -/
theorem run_bounded_read_ahead_bound_witness :
    aheadState.produced ≤ finCount aheadState + 2 * cfgTwo.limit :=
  run_bounded_read_ahead_bound cfgTwo (by decide) aheadState reach_ahead

/-- C4 (counterexample): the claimed invariant queued + executing ≤ limit is
false: state `aheadState`, reachable with `limit = 2`, has two queued and
one executing operation. -/
theorem admission_invariant_counterexample : ¬ claimAdmission cfgTwo := by
  intro h
  exact absurd (h aheadState reach_ahead) (by decide)

/-- C4 (amended): in any reachable state of a run with `limit ≥ 1`,
operations queued plus operations executing never exceed `2·limit − 1`:
the task queue holds at most `limit` operations and at most `limit`
consumers execute, and both bounds are simultaneously unattainable. -/
theorem run_bounded_admission_bound (cfg : Config) (hl : 1 ≤ cfg.limit)
    (s : EState) (h : Steps cfg (init cfg) s) :
    qCount s + execCount s ≤ 2 * cfg.limit - 1 := by
  obtain ⟨h1, h2, h3, h4, h5, h6⟩ := reachable_inv cfg hl s h
  omega

/-- C4 (amended, witness): the bound holds, with equality, at the concrete
reachable state `aheadState` of `cfgTwo`. -/
theorem run_bounded_admission_bound_witness :
    qCount aheadState + execCount aheadState ≤ 2 * cfgTwo.limit - 1 :=
  run_bounded_admission_bound cfgTwo (by decide) aheadState reach_ahead

/-- C5: the claim says that for every source and limit a raising operation's
outcome is delivered as `Err` and all other operations still execute and
deliver outcomes.  The code violates it: with `limit = 1` and a source whose
first operation raises, the engine reaches the deadlock state without ever
starting either operation — the `Err` outcome is never delivered and the
second operation never executes. -/
theorem run_bounded_failure_not_delivered :
    cfgOneFail.spec 0 = .err 5 ∧
      Steps cfgOneFail (init cfgOneFail) deadState ∧
      Stuck cfgOneFail deadState ∧
      deadState.delivered = [] ∧ startedList deadState = [] :=
  ⟨rfl, reach_dead_oneFail, deadState_stuck cfgOneFail rfl, rfl, rfl⟩

/-- C6: outcomes are yielded in completion order.  If in some reachable
state `s` operation `A` has finished while operation `B` has not even
started, then in any later state `s'` in which `B`'s outcome has been
yielded, `A`'s outcome has been yielded earlier in the sequence. -/
theorem run_bounded_completion_order (cfg : Config) (s s' : EState)
    (A B : Nat) (hreach : Steps cfg (init cfg) s) (hsteps : Steps cfg s s')
    (hA : A ∈ finSeq s) (hB : B ∉ startedList s)
    (hBdel : B ∈ deliveredIds s') :
    A ∈ deliveredIds s' ∧
      (deliveredIds s').indexOf A < (deliveredIds s').indexOf B := by
  obtain ⟨ext, hext⟩ := steps_finSeq cfg s s' hsteps
  have hBfin : B ∉ finSeq s := fun hmem => hB (List.mem_append_right _ hmem)
  have hiA : (finSeq s').indexOf A = (finSeq s).indexOf A := by
    rw [hext]; exact List.indexOf_append_of_mem hA
  have hiAlt : (finSeq s).indexOf A < (finSeq s).length :=
    List.indexOf_lt_length.2 hA
  have hiB : (finSeq s').indexOf B = (finSeq s).length + ext.indexOf B := by
    rw [hext]; exact List.indexOf_append_of_not_mem hBfin
  have hiB' : (finSeq s').indexOf B = (deliveredIds s').indexOf B :=
    List.indexOf_append_of_mem hBdel
  have hBlt : (deliveredIds s').indexOf B < (deliveredIds s').length :=
    List.indexOf_lt_length.2 hBdel
  have hAmem : A ∈ deliveredIds s' := by
    by_contra hnot
    have hsplit : (finSeq s').indexOf A
        = (deliveredIds s').length + (resIds s').indexOf A :=
      List.indexOf_append_of_not_mem hnot
    omega
  refine ⟨hAmem, ?_⟩
  have hiA' : (finSeq s').indexOf A = (deliveredIds s').indexOf A :=
    List.indexOf_append_of_mem hAmem
  omega

/-- C6 (witness): in the `cfgOrd` schedule, operation 0 finishes at `ordMid`
before operation 1 starts, and in `ordFin` its outcome is yielded first. -/
theorem run_bounded_completion_order_witness :
    0 ∈ deliveredIds ordFin ∧
      (deliveredIds ordFin).indexOf 0 < (deliveredIds ordFin).indexOf 1 :=
  run_bounded_completion_order cfgOrd ordMid ordFin 0 1 reach_ordMid
    reach_ordFin (by decide) (by decide) (by decide)

/-- C10: every yielded item is a settled future: each (id, outcome) pair on
the result queue or already yielded carries exactly the outcome of its
operation — the result or captured exception was set before the future was
put on the result queue, so awaiting a yielded outcome can never suspend. -/
theorem run_bounded_settled_futures (cfg : Config) (hl : 1 ≤ cfg.limit)
    (s : EState) (h : Steps cfg (init cfg) s) :
    (∀ p ∈ resPairs s, p.2 = cfg.spec p.1) ∧
      ∀ p ∈ s.delivered, p.2 = cfg.spec p.1 := by
  obtain ⟨_, _, _, _, _, h6⟩ := reachable_inv cfg hl s h
  exact ⟨fun p hp => h6 p (List.mem_append_right _ hp),
    fun p hp => h6 p (List.mem_append_left _ hp)⟩

/-- C10 (witness): at the concrete final state of the `cfgOrd` schedule the
yielded future of operation 0 carries exactly `cfgOrd.spec 0`. -/
theorem run_bounded_settled_futures_witness :
    ((0, Result.ok 7) : Nat × Result).2 = cfgOrd.spec 0 :=
  (run_bounded_settled_futures cfgOrd (by decide) ordFin
    reach_ordFin_full).2 (0, .ok 7) (by decide)

/-! ### Characterization of the mapping fold -/

/-- Unrolling `mapByKey`'s fold: the file gains exactly the merged Records
of the successfully transformed processed rows, the calls are exactly the
processed rows, and the recorded failures are exactly those of the failing
processed rows. -/
theorem mapFold_char {V E : Type} [DecidableEq V]
    (f : Rec V → Except E (Rec V)) (key : String) (keep : List String)
    (done : List V) (input : List (Rec V)) (acc : MapOut V E) :
    input.foldl (mapStep f key keep done) acc =
      { file := acc.file ++ (procRows key done input).filterMap (okRec f keep)
        calls := acc.calls ++ procRows key done input
        errors :=
          acc.errors ++ (procRows key done input).filterMap (errPair f) } := by
  induction input generalizing acc with
  | nil => simp [procRows]
  | cons row tl ih =>
    rw [List.foldl_cons, ih]
    by_cases hp : procP key done row
    · cases hf : f row with
      | ok res =>
        simp [mapStep, hp, hf, procRows, okRec, errPair, List.filter_cons]
      | error e =>
        simp [mapStep, hp, hf, procRows, okRec, errPair, List.filter_cons]
    · simp [mapStep, hp, procRows, List.filter_cons]

/-- A successful field lookup comes from a binding in the record. -/
theorem mem_of_getF_eq_some {V : Type} (l : Rec V) (name : String) (v : V)
    (h : getF l name = some v) : (name, v) ∈ l := by
  unfold getF at h
  cases hf : l.find? fun p => p.1 == name with
  | none => rw [hf] at h; simp at h
  | some q =>
    rw [hf] at h
    simp only [Option.map_some', Option.some.injEq] at h
    have hq := List.find?_some hf
    have hm := List.mem_of_find?_eq_some hf
    obtain ⟨n, w⟩ := q
    simp only [beq_iff_eq] at hq
    subst hq
    subst h
    exact hm

/-- In a record with no duplicate field names, any binding determines the
lookup. -/
theorem getF_eq_some_of_mem {V : Type} (l : Rec V) (name : String) (v : V)
    (hnd : (l.map Prod.fst).Nodup) (hmem : (name, v) ∈ l) :
    getF l name = some v := by
  induction l with
  | nil => simp at hmem
  | cons a tl ih =>
    rw [List.map_cons] at hnd
    have hcons := List.nodup_cons.1 hnd
    rcases List.mem_cons.1 hmem with rfl | hmemtl
    · simp [getF]
    · have hname : name ∈ tl.map Prod.fst :=
        List.mem_map_of_mem Prod.fst hmemtl
      have hns : ¬(a.1 = name) := fun hEq => hcons.1 (hEq ▸ hname)
      have hfind : (a :: tl).find? (fun p => p.1 == name)
          = tl.find? (fun p => p.1 == name) :=
        List.find?_cons_of_neg _ (by simpa using hns)
      unfold getF
      rw [hfind]
      exact ih hcons.2 hmemtl

/-- If the key values of `input` are pairwise distinct, the rows carrying
key value `K` are exactly the one known row `rowK`. -/
theorem filter_key_eq_singleton {V : Type} [DecidableEq V] (key : String)
    (input : List (Rec V)) (K : V) (rowK : Rec V)
    (hmem : rowK ∈ input) (hkey : getF rowK key = some K)
    (hnodup : (doneKeys key input).Nodup) :
    input.filter (fun row => decide (getF row key = some K)) = [rowK] := by
  induction input with
  | nil => simp at hmem
  | cons a tl ih =>
    have hsplit : doneKeys key (a :: tl)
        = (getF a key).toList ++ doneKeys key tl := by
      cases hga : getF a key <;> simp [doneKeys, List.filterMap_cons, hga]
    rcases List.mem_cons.1 hmem with rfl | hmemtl
    · have hKtl : K ∉ doneKeys key tl := by
        rw [hsplit, hkey] at hnodup
        exact (List.nodup_cons.1 (by simpa using hnodup)).1
      have hnone : tl.filter (fun row => decide (getF row key = some K)) = [] := by
        refine List.filter_eq_nil_iff.2 fun row hrow => ?_
        simp only [decide_eq_true_eq]
        intro hEq
        exact hKtl (by simp [doneKeys]; exact ⟨row, hrow, hEq⟩)
      simp [List.filter_cons, hkey, hnone]
    · have hKtl : K ∈ doneKeys key tl := by
        simp [doneKeys]; exact ⟨rowK, hmemtl, hkey⟩
      have ha : ¬(getF a key = some K) := by
        intro hEq
        rw [hsplit, hEq] at hnodup
        exact (List.nodup_cons.1 (by simpa using hnodup)).1 hKtl
      have htl : (doneKeys key tl).Nodup := by
        rw [hsplit] at hnodup
        exact (List.Nodup.of_append_right hnodup)
      simp [List.filter_cons, ha]
      exact ih hmemtl htl

/-- C2: resumability of the mapping pipeline (modelled from the spec).  If
the output file is pre-seeded with the correct Record for key `K`, then on
an input whose rows are keyed with pairwise-distinct keys: the transform is
never invoked on `K`'s row, it is invoked exactly once on each other row,
the final file is — as a multiset — exactly the fully mapped input, and any
number of repeated runs changes nothing further (no invocations, identical
file). -/
theorem map_by_key_resume {V : Type} [DecidableEq V]
    (g : Rec V → Rec V) (key : String) (keep : List String)
    (input : List (Rec V)) (rowK seed : Rec V) (K : V)
    (hmem : rowK ∈ input)
    (hKkey : getF rowK key = some K)
    (hseed : seed = expectedRow g keep rowK)
    (hkeys : ∀ row ∈ input, (getF row key).isSome = true)
    (hnodup : (doneKeys key input).Nodup)
    (hgk : ∀ row ∈ input, getF (expectedRow g keep row) key = getF row key) :
    (∀ row ∈ (mapByKey input [seed] (okF g) key keep).calls,
        ¬(getF row key = some K))
    ∧ (mapByKey input [seed] (okF g) key keep).calls
        = input.filter (fun row => !(decide (getF row key = some K)))
    ∧ ((mapByKey input [seed] (okF g) key keep).file).Perm
        (input.map (expectedRow g keep))
    ∧ mapByKey input ((mapByKey input [seed] (okF g) key keep).file)
        (okF g) key keep
        = { file := (mapByKey input [seed] (okF g) key keep).file
            calls := [], errors := [] }
    ∧ ∀ n, (fun out => (mapByKey input out (okF g) key keep).file)^[n]
        ((mapByKey input [seed] (okF g) key keep).file)
        = (mapByKey input [seed] (okF g) key keep).file := by
  have hseedkey : getF seed key = some K := by
    rw [hseed, hgk rowK hmem, hKkey]
  have hdone : doneKeys key [seed] = [K] := by
    simp [doneKeys, hseedkey]
  have hproc : procRows key (doneKeys key [seed]) input
      = input.filter (fun row => !(decide (getF row key = some K))) := by
    rw [hdone]
    refine List.filter_congr fun row hrow => ?_
    have hs := hkeys row hrow
    cases hg : getF row key with
    | none => rw [hg] at hs; simp at hs
    | some k =>
      simp only [procP, hg]
      by_cases hk : k = K <;> simp [hk]
  have hfm : ∀ l : List (Rec V),
      l.filterMap (okRec (okF g) keep) = l.map (expectedRow g keep) := by
    intro l
    induction l with
    | nil => simp
    | cons a t iht => simp [List.filterMap_cons, okRec, okF, iht]; rfl
  have hfe : ∀ l : List (Rec V), l.filterMap (errPair (okF g)) = [] := by
    intro l
    induction l with
    | nil => simp
    | cons a t iht => simp [List.filterMap_cons, errPair, okF, iht]
  have hM : mapByKey input [seed] (okF g) key keep
      = { file := [seed]
            ++ (input.filter fun row => !(decide (getF row key = some K))).map
              (expectedRow g keep)
          calls := input.filter fun row => !(decide (getF row key = some K))
          errors := [] } := by
    unfold mapByKey
    rw [mapFold_char, hproc, hfm, hfe]
    simp
  have hcalls : (mapByKey input [seed] (okF g) key keep).calls
      = input.filter (fun row => !(decide (getF row key = some K))) := by
    rw [hM]
  have hfile : (mapByKey input [seed] (okF g) key keep).file
      = seed :: (input.filter fun row => !(decide (getF row key = some K))).map
        (expectedRow g keep) := by
    rw [hM]
    rfl
  have hsub : ∀ row ∈ input,
      procP key (doneKeys key
        ((mapByKey input [seed] (okF g) key keep).file)) row = false := by
    intro row hrow
    have hs := hkeys row hrow
    cases hg : getF row key with
    | none => rw [hg] at hs; simp at hs
    | some k =>
      have hkmem : k ∈ doneKeys key
          ((mapByKey input [seed] (okF g) key keep).file) := by
        rw [hfile]
        by_cases hk : getF row key = some K
        · have hkK : k = K := by rw [hg] at hk; exact Option.some.inj hk
          refine List.mem_filterMap.2 ⟨seed, List.mem_cons_self _ _, ?_⟩
          rw [hseedkey, hkK]
        · have hrowf : row ∈ input.filter
              (fun r => !(decide (getF r key = some K))) :=
            List.mem_filter.2 ⟨hrow, by simpa using hk⟩
          refine List.mem_filterMap.2
            ⟨expectedRow g keep row,
              List.mem_cons_of_mem _ (List.mem_map_of_mem _ hrowf), ?_⟩
          rw [hgk row hrow, hg]
      simp [procP, hg, hkmem]
  have hnone : procRows key (doneKeys key
      ((mapByKey input [seed] (okF g) key keep).file)) input = [] := by
    refine List.filter_eq_nil_iff.2 fun row hrow => ?_
    rw [hsub row hrow]
    simp
  have hfix : mapByKey input ((mapByKey input [seed] (okF g) key keep).file)
      (okF g) key keep
      = { file := (mapByKey input [seed] (okF g) key keep).file
          calls := [], errors := [] } := by
    refine Eq.trans (mapFold_char (okF g) key keep _ input _) ?_
    rw [hnone]
    simp
  refine ⟨?_, hcalls, ?_, hfix, ?_⟩
  · intro row hrow
    rw [hcalls] at hrow
    have := (List.mem_filter.1 hrow).2
    simpa using this
  · rw [hfile]
    have hperm1 :=
      (List.filter_append_perm
        (fun row => decide (getF row key = some K)) input).map
        (expectedRow g keep)
    have hsing := filter_key_eq_singleton key input K rowK hmem hKkey hnodup
    rw [List.map_append, hsing] at hperm1
    simp only [List.map_cons, List.map_nil] at hperm1
    rw [← hseed] at hperm1
    simpa using hperm1
  · intro n
    exact Function.iterate_fixed (congrArg MapOut.file hfix) n

/-- C2 (witness): the resumability theorem applied to the concrete pre-seeded
run of `test_resume_does_not_recompute`. -/
theorem map_by_key_resume_witness :
    (mapByKey inputW [seedW] (okF gW) "key" ["other"]).calls
        = inputW.filter (fun row => !(decide (getF row "key" = some 10)))
    ∧ ((mapByKey inputW [seedW] (okF gW) "key" ["other"]).file).Perm
        (inputW.map (expectedRow gW ["other"])) := by
  have h := map_by_key_resume gW "key" ["other"] inputW
      [("key", 10), ("other", 100)] seedW 10
      (by decide) (by decide) (by decide) (by decide) (by decide) (by decide)
  exact ⟨h.2.1, h.2.2.1⟩

/-- C7: partial-failure durability of the mapping pipeline with
`on_error="raise"` (modelled from the spec).  Every processed row whose
transform succeeds has its merged Record durably in the output file — also
when the call raises; the aggregate failure lists exactly the failing items,
each with its failure; and the call raises (the failure list is non-empty)
precisely when some processed item failed. -/
theorem map_by_key_raise_durability {V E : Type} [DecidableEq V]
    (f : Rec V → Except E (Rec V)) (key : String) (keep : List String)
    (input out0 : List (Rec V)) :
    (∀ row ∈ procRows key (doneKeys key out0) input, ∀ res, f row = .ok res →
        mergeRec res (keepPart keep row) ∈ (mapByKey input out0 f key keep).file)
    ∧ (∀ row ∈ procRows key (doneKeys key out0) input, ∀ e, f row = .error e →
        (row, e) ∈ (mapByKey input out0 f key keep).errors)
    ∧ (∀ pe ∈ (mapByKey input out0 f key keep).errors,
        pe.1 ∈ procRows key (doneKeys key out0) input ∧ f pe.1 = .error pe.2)
    ∧ ((mapByKey input out0 f key keep).errors ≠ [] ↔
        ∃ row ∈ procRows key (doneKeys key out0) input, ∃ e, f row = .error e)
    ∧ (mapByKey input out0 f key keep).file
        = out0 ++ (procRows key (doneKeys key out0) input).filterMap
            (okRec f keep) := by
  have hchar : mapByKey input out0 f key keep
      = { file := out0
            ++ (procRows key (doneKeys key out0) input).filterMap (okRec f keep)
          calls := procRows key (doneKeys key out0) input
          errors := (procRows key (doneKeys key out0) input).filterMap
            (errPair f) } := by
    refine Eq.trans (mapFold_char f key keep _ input _) ?_
    simp
  refine ⟨?_, ?_, ?_, ?_, ?_⟩
  · intro row hrow res hres
    rw [hchar]
    refine List.mem_append_right _ (List.mem_filterMap.2 ⟨row, hrow, ?_⟩)
    simp [okRec, hres]
  · intro row hrow e he
    rw [hchar]
    refine List.mem_filterMap.2 ⟨row, hrow, ?_⟩
    simp [errPair, he]
  · intro pe hpe
    rw [hchar] at hpe
    obtain ⟨row, hrow, herr⟩ := List.mem_filterMap.1 hpe
    cases hf : f row with
    | ok res => rw [errPair, hf] at herr; simp at herr
    | error e =>
      rw [errPair, hf] at herr
      simp at herr
      rw [← herr]
      exact ⟨hrow, by simp [hf]⟩
  · constructor
    · intro hne
      rw [hchar] at hne
      obtain ⟨pe, hpe⟩ := List.exists_mem_of_ne_nil _ hne
      obtain ⟨row, hrow, herr⟩ := List.mem_filterMap.1 hpe
      cases hf : f row with
      | ok res => rw [errPair, hf] at herr; simp at herr
      | error e => exact ⟨row, hrow, e, hf⟩
    · rintro ⟨row, hrow, e, he⟩
      rw [hchar]
      have hmem : (row, e) ∈ (procRows key (doneKeys key out0)
          input).filterMap (errPair f) := by
        refine List.mem_filterMap.2 ⟨row, hrow, ?_⟩
        simp [errPair, he]
      exact List.ne_nil_of_mem hmem
  · rw [hchar]

/-- C7 (witness): with key 20 failing, key 10's Record is in the output
file and the aggregate failure names exactly key 20's row. -/
theorem map_by_key_raise_durability_witness :
    mergeRec [("result", 11), ("key", 10)]
        (keepPart ["other"] [("key", 10), ("other", 100)])
        ∈ (mapByKey inputW [] fW "key" ["other"]).file
    ∧ ([("key", 20), ("other", 200)], 7)
        ∈ (mapByKey inputW [] fW "key" ["other"]).errors := by
  have h := map_by_key_raise_durability fW "key" ["other"] inputW []
  exact ⟨h.1 [("key", 10), ("other", 100)] (by decide)
      [("result", 11), ("key", 10)] rfl,
    h.2.1 [("key", 20), ("other", 200)] (by decide) 7 rfl⟩

/-- C8 (counterexample): the claim that two runs leave *exactly*
`target_count_per_key` Records per expected key ("never more") fails when
the file already holds more than the target: with three Records for the key
and target 2, both runs return the file unchanged and the count stays 3. -/
theorem create_or_resume_counterexample :
    createOrResume c8file "letter" 2 [0] c8gen = .ok c8file
    ∧ countKey c8file "letter" 0 = 3
    ∧ ¬(countKey c8file "letter" 0 = 2) :=
  ⟨rfl, by decide, by decide⟩

/-- Key counts add over file concatenation. -/
theorem countKey_append {V : Type} [DecidableEq V] (f1 f2 : List (Rec V))
    (key : String) (k : V) :
    countKey (f1 ++ f2) key k = countKey f1 key k + countKey f2 key k := by
  simp [countKey, List.countP_append]

/-- Unrolling `genList` over the head expected key value. -/
theorem genList_cons {V : Type} [DecidableEq V] (file : List (Rec V))
    (key : String) (target : Nat) (a : V) (tl : List V)
    (gen : V → Nat → Rec V) :
    genList file key target (a :: tl) gen
      = (List.range (target - countKey file key a)).map (gen a)
        ++ genList file key target tl gen := by
  simp [genList, List.map_cons, List.flatten_cons]

/-- The Records generated for key value `a` all count for `a` and for no
other key value. -/
theorem countKey_gen_block {V : Type} [DecidableEq V] (file : List (Rec V))
    (key : String) (target : Nat) (a : V) (gen : V → Nat → Rec V)
    (hgen : ∀ k i, getF (gen k i) key = some k) (k : V) :
    countKey ((List.range (target - countKey file key a)).map (gen a)) key k
      = if k = a then target - countKey file key a else 0 := by
  by_cases hka : k = a
  · subst hka
    rw [if_pos rfl]
    have := List.countP_eq_length
      (p := fun r : Rec V => decide (getF r key = some k))
      (l := (List.range (target - countKey file key k)).map (gen k))
    rw [show countKey ((List.range (target - countKey file key k)).map
        (gen k)) key k
        = ((List.range (target - countKey file key k)).map (gen k)).length
        from ?_]
    · simp
    · refine List.countP_eq_length.2 fun r hr => ?_
      obtain ⟨i, _, rfl⟩ := List.mem_map.1 hr
      simp [hgen k i]
  · rw [if_neg hka]
    refine List.countP_eq_zero.2 fun r hr => ?_
    obtain ⟨i, _, rfl⟩ := List.mem_map.1 hr
    simp [hgen a i]
    exact fun hEq => hka hEq.symm

/-- A generated Record for an expected key value never matches a key value
outside the expected set. -/
theorem countKey_genList_of_not_mem {V : Type} [DecidableEq V]
    (file : List (Rec V)) (key : String) (target : Nat) (keys : List V)
    (gen : V → Nat → Rec V) (hgen : ∀ k i, getF (gen k i) key = some k)
    (k : V) (hk : k ∉ keys) :
    countKey (genList file key target keys gen) key k = 0 := by
  induction keys with
  | nil => simp [genList, countKey]
  | cons a tl ih =>
    have hka : ¬(k = a) := fun hEq => hk (hEq ▸ List.mem_cons_self a tl)
    have hktl : k ∉ tl := fun hmem => hk (List.mem_cons_of_mem _ hmem)
    rw [genList_cons, countKey_append, ih hktl,
      countKey_gen_block file key target a gen hgen k, if_neg hka]

/-- For an expected key value (with pairwise-distinct expected values), one
run generates exactly the deficit. -/
theorem countKey_genList {V : Type} [DecidableEq V]
    (file : List (Rec V)) (key : String) (target : Nat) (keys : List V)
    (gen : V → Nat → Rec V) (hgen : ∀ k i, getF (gen k i) key = some k)
    (hnodup : keys.Nodup) (k : V) (hk : k ∈ keys) :
    countKey (genList file key target keys gen) key k
      = target - countKey file key k := by
  induction keys with
  | nil => simp at hk
  | cons a tl ih =>
    have hcons := List.nodup_cons.1 hnodup
    rcases List.mem_cons.1 hk with rfl | hktl
    · rw [genList_cons, countKey_append,
        countKey_genList_of_not_mem file key target tl gen hgen k hcons.1,
        countKey_gen_block file key target k gen hgen k, if_pos rfl]
      omega
    · have hka : ¬(k = a) := fun hEq => hcons.1 (hEq ▸ hktl)
      rw [genList_cons, countKey_append, ih hcons.2 hktl,
        countKey_gen_block file key target a gen hgen k, if_neg hka]
      omega

/-- Every generated Record passes the structural audit. -/
theorem genList_all_ok {V : Type} [DecidableEq V]
    (file : List (Rec V)) (key : String) (target : Nat) (keys : List V)
    (gen : V → Nat → Rec V) (hgen : ∀ k i, getF (gen k i) key = some k) :
    ∀ r ∈ genList file key target keys gen, rowOkB key keys r = true := by
  intro r hr
  obtain ⟨l, hl, hrl⟩ := List.mem_flatten.1 hr
  obtain ⟨k, hkmem, rfl⟩ := List.mem_map.1 hl
  obtain ⟨i, _, rfl⟩ := List.mem_map.1 hrl
  simp [rowOkB, hgen k i, hkmem]

/-- C8 (amended): with pairwise-distinct expected key values, a key-correct
value generator and a structurally valid file, one run appends exactly the
deficits — every expected key's count becomes `max(initial, target)`, which
is exactly `target` whenever the initial count did not exceed the target —
and a second run generates nothing and leaves the file unchanged. -/
theorem create_or_resume_converges {V : Type} [DecidableEq V]
    (file0 : List (Rec V)) (key : String) (target : Nat) (keys : List V)
    (gen : V → Nat → Rec V)
    (hstruct : file0.all (rowOkB key keys) = true)
    (hnodup : keys.Nodup)
    (hgen : ∀ k i, getF (gen k i) key = some k) :
    createOrResume file0 key target keys gen
        = .ok (file0 ++ genList file0 key target keys gen)
    ∧ (∀ k ∈ keys, countKey (file0 ++ genList file0 key target keys gen) key k
        = max (countKey file0 key k) target)
    ∧ genList (file0 ++ genList file0 key target keys gen) key target keys gen
        = []
    ∧ createOrResume (file0 ++ genList file0 key target keys gen) key target
        keys gen = .ok (file0 ++ genList file0 key target keys gen)
    ∧ (∀ k ∈ keys, countKey file0 key k ≤ target →
        countKey (file0 ++ genList file0 key target keys gen) key k = target) := by
  have hcount : ∀ k ∈ keys,
      countKey (file0 ++ genList file0 key target keys gen) key k
        = max (countKey file0 key k) target := by
    intro k hk
    have hg := countKey_genList file0 key target keys gen hgen hnodup k hk
    simp only [countKey, List.countP_append] at *
    omega
  have hnil : genList (file0 ++ genList file0 key target keys gen) key target
      keys gen = [] := by
    refine List.flatten_eq_nil_iff.2 fun l hl => ?_
    obtain ⟨k, hkmem, rfl⟩ := List.mem_map.1 hl
    have := hcount k hkmem
    have hz : target - countKey (file0 ++ genList file0 key target keys gen)
        key k = 0 := by omega
    rw [hz]
    simp
  have hall1 : (file0 ++ genList file0 key target keys gen).all
      (rowOkB key keys) = true := by
    rw [List.all_append, hstruct]
    simp only [Bool.true_and]
    rw [List.all_eq_true]
    exact genList_all_ok file0 key target keys gen hgen
  refine ⟨by simp [createOrResume, hstruct], hcount, hnil, ?_, ?_⟩
  · simp [createOrResume, hall1, hnil]
  · intro k hk hle
    have := hcount k hk
    omega

/-- C8 (amended, witness): concrete resume of `test_resume_existing_file`
(counts 2 and 1, target 2): the deficient key is topped up to the target and
the second run generates nothing. -/
theorem create_or_resume_converges_witness :
    countKey (c8fileW ++ genList c8fileW "letter" 2 [0, 1] c8gen) "letter" 1
        = max (countKey c8fileW "letter" 1) 2
    ∧ genList (c8fileW ++ genList c8fileW "letter" 2 [0, 1] c8gen) "letter" 2
        [0, 1] c8gen = [] := by
  have h := create_or_resume_converges c8fileW "letter" 2 [0, 1] c8gen
      (by decide) (by decide) (fun k i => rfl)
  exact ⟨h.2.1 1 (by decide), h.2.2.1⟩

/-- Dropping elements that can never be the first match does not change a
`find?`. -/
theorem find?_filter_of_imp {α : Type} (l : List α) (p q : α → Bool)
    (h : ∀ x ∈ l, p x = true → q x = true) :
    (l.filter q).find? p = l.find? p := by
  induction l with
  | nil => rfl
  | cons a tl ih =>
    have htl := ih fun x hx => h x (List.mem_cons_of_mem _ hx)
    by_cases hpa : p a = true
    · rw [List.filter_cons, if_pos (h a (List.mem_cons_self a tl) hpa),
        List.find?_cons_of_pos _ hpa, List.find?_cons_of_pos _ hpa]
    · by_cases hqa : q a = true
      · rw [List.filter_cons, if_pos hqa, List.find?_cons_of_neg _ hpa,
          List.find?_cons_of_neg _ hpa]
        exact htl
      · rw [List.filter_cons, if_neg hqa, List.find?_cons_of_neg _ hpa]
        exact htl

/-- A name bound among the restored values reads its restored value. -/
theorem getF_overrideRec_left {V : Type} (base upd : Rec V) (name : String)
    (v : V) (h : getF upd name = some v) :
    getF (overrideRec base upd) name = some v := by
  unfold overrideRec getF at *
  rw [List.find?_append]
  cases hf : upd.find? fun p => p.1 == name with
  | none => rw [hf] at h; simp at h
  | some q => rw [hf] at h; simp [hf, h]

/-- A name not bound among the restored values reads its pre-block value. -/
theorem getF_overrideRec_right {V : Type} (base upd : Rec V) (name : String)
    (hnone : ∀ p ∈ upd, ¬(p.1 = name)) :
    getF (overrideRec base upd) name = getF base name := by
  unfold overrideRec getF
  rw [List.find?_append]
  have h1 : (upd.find? fun p => p.1 == name) = none :=
    List.find?_eq_none.2 fun p hp => by simpa using hnone p hp
  have hImp : ∀ x ∈ base, (x.1 == name) = true →
      (!(upd.any fun q => q.1 == x.1)) = true := by
    intro x _ hpx
    simp only [beq_iff_eq] at hpx
    have hfalse : (upd.any fun q => q.1 == x.1) = false := by
      rw [List.any_eq_false]
      intro q hq
      rw [hpx]
      simpa using hnone q hq
    rw [hfalse]
    rfl
  rw [h1]
  simp only [Option.none_or]
  rw [find?_filter_of_imp base _ _ hImp]

/-- C9: cache-block round trip (modelled from the spec).  Running a block
under `disk_cache` with no Cache Record present executes the body and
persists a Cache Record; running it again with that Record present does not
execute the body and restores every value the block had bound, under the
same name.  The only hypothesis is that the block binds each name once. -/
theorem disk_cache_roundtrip {V : Type} [DecidableEq V]
    (body : Rec V → Rec V) (locals0 : Rec V)
    (hnd : ((body locals0).map Prod.fst).Nodup) :
    (diskCache none body locals0).executed = true
    ∧ (diskCache none body locals0).locals = body locals0
    ∧ (diskCache none body locals0).cache.isSome = true
    ∧ (diskCache (diskCache none body locals0).cache body locals0).executed
        = false
    ∧ ∀ name v, getF (body locals0) name = some v →
        getF (diskCache (diskCache none body locals0).cache body
          locals0).locals name = some v := by
  refine ⟨rfl, rfl, rfl, rfl, ?_⟩
  intro name v hval
  show getF (overrideRec locals0 ((body locals0).filter fun p =>
      !(decide (getF locals0 p.1 = some p.2)))) name = some v
  by_cases hcase : getF locals0 name = some v
  · refine Eq.trans (getF_overrideRec_right locals0 _ name ?_) hcase
    rintro ⟨p1, p2⟩ hp hpn
    simp only at hpn
    subst hpn
    have hmem := List.mem_filter.1 hp
    have hp2 : getF (body locals0) p1 = some p2 :=
      getF_eq_some_of_mem _ p1 p2 hnd hmem.1
    have hv : p2 = v := by
      rw [hval] at hp2
      exact (Option.some.inj hp2).symm
    subst hv
    have := hmem.2
    simp [hcase] at this
  · apply getF_overrideRec_left
    refine getF_eq_some_of_mem _ name v ?_ ?_
    · exact hnd.sublist ((List.filter_sublist _).map Prod.fst)
    · refine List.mem_filter.2 ⟨mem_of_getF_eq_some _ name v hval, ?_⟩
      simpa using hcase

/-- C9 (witness): the round trip at the concrete block — the first run
executes, the second run does not and restores `a = 6`. -/
theorem disk_cache_roundtrip_witness :
    (diskCache none c9body ([] : Rec Nat)).executed = true
    ∧ (diskCache (diskCache none c9body ([] : Rec Nat)).cache c9body
        ([] : Rec Nat)).executed = false
    ∧ getF (diskCache (diskCache none c9body ([] : Rec Nat)).cache c9body
        ([] : Rec Nat)).locals "a" = some 6 := by
  have h := disk_cache_roundtrip c9body ([] : Rec Nat) (by decide)
  exact ⟨h.1, h.2.2.2.1, h.2.2.2.2 "a" 6 (by decide)⟩

end PyAbs
